import Mathlib

/-!
Shallow embedding of the py-libp2p record/validation subsystem and the
Kademlia routing table, translated from:

  src/libp2p/record/utils.py       (SplitKey)
  src/libp2p/record/record.py      (Record, MakePutRecord)
  src/libp2p/record/validator.py   (Validator, PublicKeyValidator, NamespacedValidator)
  src/libp2p/record/exceptions.py  (exception classes)
  src/libp2p/kad_dht/routing_table.py (xor_distance, RoutingTable)

Python strings are modelled as lists of characters (`Key`), Python `bytes`
as lists of bytes (`Bytes`, each byte a `Fin 256`), and raised exceptions
as the `Except` monad over `RecordError`, whose constructors mirror the
exception classes of exceptions.py and whose message payloads mirror the
f-string messages at each raise site (structured as the `Msg` inductive,
one constructor per raise site).
-/

/-- A Python `str` (record keys, namespaces, paths, authors). -/
abbrev Key := List Char

/-- One byte of a Python `bytes` object. -/
abbrev Byte := Fin 256

/-- A Python `bytes` object (record values, peer ids, signatures). -/
abbrev Bytes := List Byte

/-- Structured counterpart of the f-string messages carried by the
exceptions raised in the record module; one constructor per raise site. -/
inductive Msg where
  | emptyKey : Msg
  | invalidKeyFormat (k : Key) : Msg
  | emptyNamespace : Msg
  | emptyPath : Msg
  | invalidNamespaceForPublicKeyValidator (ns : Key) : Msg
  | invalidPeerIdInKey (e : String) : Msg
  | failedToParsePublicKeyProtobuf (e : String) : Msg
  | invalidPublicKeyProtobufStructure : Msg
  | noValidatorForNamespace (ns : Key) : Msg
  | noValuesToSelectFrom : Msg
  deriving DecidableEq, Repr

/-- The exception classes of src/libp2p/record/exceptions.py, together with
the message raised. -/
inductive RecordError where
  | errInvalidRecordType (m : Msg) : RecordError
  | errInvalidRecord (m : Msg) : RecordError
  | errInvalidPublicKey (m : Msg) : RecordError
  | errInvalidMultihash (m : Msg) : RecordError
  deriving DecidableEq, Repr

instance {ε α : Type} [DecidableEq ε] [DecidableEq α] :
    DecidableEq (Except ε α) := fun x y =>
  match x, y with
  | .ok a, .ok b =>
    if h : a = b then isTrue (by rw [h])
    else isFalse (by intro he; cases he; exact h rfl)
  | .error a, .error b =>
    if h : a = b then isTrue (by rw [h])
    else isFalse (by intro he; cases he; exact h rfl)
  | .ok _, .error _ => isFalse (by intro he; cases he)
  | .error _, .ok _ => isFalse (by intro he; cases he)

/-- Python `key.split("/", 1)` restricted to the informative case: `none`
when no slash occurs in the list, otherwise the segments before and after
the first slash. -/
def splitOnceSlash : Key → Option (Key × Key)
  | [] => none
  | c :: cs =>
    if c = '/' then some ([], cs)
    else
      match splitOnceSlash cs with
      | none => none
      | some (a, b) => some (c :: a, b)

/-- `SplitKey` from src/libp2p/record/utils.py: strip a single optional
leading slash, split on the first remaining slash, reject empty key /
missing slash / empty namespace / empty path.  The Python `len(parts) < 2`
test is exactly the `splitOnceSlash = none` case, since `str.split` with
limit 1 returns two parts iff a slash is present. -/
def SplitKey (key : Key) : Except RecordError (Key × Key) :=
  if key = [] then .error (.errInvalidRecordType .emptyKey)
  else
    let key1 := if key.head? = some '/' then key.tail else key
    match splitOnceSlash key1 with
    | none => .error (.errInvalidRecordType (.invalidKeyFormat key1))
    | some (ns, path) =>
      if ns = [] then .error (.errInvalidRecordType .emptyNamespace)
      else if path = [] then .error (.errInvalidRecordType .emptyPath)
      else .ok (ns, path)

/-- `Record` from src/libp2p/record/record.py.  `timestamp` is the value of
`time.time()` at construction, passed in explicitly since the embedding is
pure. -/
structure Record where
  key : Key
  value : Bytes
  author : Option Key
  signature : Option Bytes
  timestamp : Nat
  deriving DecidableEq, Repr

/-- `Record.__init__` / `MakePutRecord`: plain construction, stamping the
current time. -/
def MakePutRecord (key : Key) (value : Bytes) (author : Option Key)
    (signature : Option Bytes) (now : Nat) : Record :=
  { key := key, value := value, author := author, signature := signature,
    timestamp := now }

/-- `Record.__eq__`: compares key, value, author and signature; the
timestamp is not compared. -/
def recordEq (a b : Record) : Bool :=
  a.key == b.key && a.value == b.value && a.author == b.author &&
    a.signature == b.signature

/-- Result of `PublicKey.deserialize_from_protobuf`: a protobuf message on
which the code only performs `hasattr` checks for `key_type` and `data`;
the two flags model the duck-typed presence of those attributes. -/
structure PublicKeyProto where
  hasKeyType : Bool
  hasData : Bool
  deriving DecidableEq, Repr

/-- The external collaborators used by `PublicKeyValidator.validate`
(base58 codec, multihash decoder, protobuf deserializer), each modelled as
a function that either succeeds or fails with a message string. -/
structure CryptoEnv where
  b58decode : Key → Except String Bytes
  multihashDecode : Bytes → Except String Unit
  deserializePublicKey : Bytes → Except String PublicKeyProto

/-- The `Validator` abstract base class of src/libp2p/record/validator.py:
a capability with `validate` and `select`. -/
structure Validator where
  validate : Key → Bytes → Except RecordError Unit
  select : Key → List Bytes → Except RecordError Nat

/-- `PublicKeyValidator.validate`: split the key (re-raising a
`SplitKey` failure unchanged), require namespace "pk", base58-decode the
path and decode it as a multihash — a failure of the inner multihash
decode raises `ErrInvalidMultihash("invalid multihash in key: ...")`,
which the outer `except` immediately re-wraps, so both decode failures
surface as `ErrInvalidMultihash("invalid peer ID in key: ...")` — then
deserialize the value as a public-key protobuf and check it has
`key_type` and `data` attributes. -/
def pkValidate (env : CryptoEnv) (key : Key) (value : Bytes) :
    Except RecordError Unit :=
  match SplitKey key with
  | .error e => .error e
  | .ok (ns, path) =>
    if ns ≠ ['p', 'k'] then
      .error (.errInvalidRecordType (.invalidNamespaceForPublicKeyValidator ns))
    else
      let mh : Except RecordError Unit :=
        match env.b58decode path with
        | .error e => .error (.errInvalidMultihash (.invalidPeerIdInKey e))
        | .ok bs =>
          match env.multihashDecode bs with
          | .error e =>
            .error (.errInvalidMultihash
              (.invalidPeerIdInKey ("invalid multihash in key: " ++ e)))
          | .ok _ => .ok ()
      match mh with
      | .error e => .error e
      | .ok _ =>
        match env.deserializePublicKey value with
        | .error e => .error (.errInvalidPublicKey (.failedToParsePublicKeyProtobuf e))
        | .ok p =>
          if p.hasKeyType && p.hasData then .ok ()
          else .error (.errInvalidPublicKey .invalidPublicKeyProtobufStructure)

/-- `PublicKeyValidator.select`: raises `ErrInvalidRecord("no values to
select from")` on an empty list, otherwise validates the first value and
returns index 0. -/
def pkSelect (env : CryptoEnv) (key : Key) (values : List Bytes) :
    Except RecordError Nat :=
  match values with
  | [] => .error (.errInvalidRecord .noValuesToSelectFrom)
  | v :: _ =>
    match pkValidate env key v with
    | .error e => .error e
    | .ok _ => .ok 0

/-- The `PublicKeyValidator` instance as a `Validator` capability. -/
def PublicKeyValidator (env : CryptoEnv) : Validator :=
  { validate := pkValidate env, select := pkSelect env }

/-- `NamespacedValidator`: its `_validators` dict, modelled as an
association list (first match wins on lookup, in-place replace on update,
append on fresh insert — the observable behaviour of a Python dict). -/
structure NamespacedValidator where
  validators : List (Key × Validator)

/-- `NamespacedValidator.__init__`: the default registry, mapping "pk" to
the public-key validator. -/
def NamespacedValidator.default (env : CryptoEnv) : NamespacedValidator :=
  ⟨[(['p', 'k'], PublicKeyValidator env)]⟩

/-- `self._validators.get(namespace)`. -/
def NamespacedValidator.get (nv : NamespacedValidator) (ns : Key) :
    Option Validator :=
  (nv.validators.find? (fun kv => kv.1 == ns)).map (fun kv => kv.2)

/-- `NamespacedValidator.add_validator`: dict insert-or-replace. -/
def NamespacedValidator.add_validator (nv : NamespacedValidator) (ns : Key)
    (v : Validator) : NamespacedValidator :=
  if nv.validators.any (fun kv => kv.1 == ns) then
    ⟨nv.validators.map (fun kv => if kv.1 == ns then (ns, v) else kv)⟩
  else ⟨nv.validators ++ [(ns, v)]⟩

/-- `NamespacedValidator.validator_by_key`: split the key, returning `none`
on a `SplitKey` failure (the `except ErrInvalidRecordType: return None`
branch — every `SplitKey` failure is of that class), else look the
namespace up in the dict. -/
def NamespacedValidator.validator_by_key (nv : NamespacedValidator)
    (key : Key) : Option Validator :=
  match SplitKey key with
  | .error _ => none
  | .ok (ns, _) => nv.get ns

/-- `NamespacedValidator.validate`: a `SplitKey` failure is caught and
re-raised as `ErrInvalidRecordType("invalid key format: {key}")` with the
original key; a missing validator raises `ErrInvalidRecordType("no
validator for namespace: {namespace}")`; otherwise delegates. -/
def NamespacedValidator.validate (nv : NamespacedValidator) (key : Key)
    (value : Bytes) : Except RecordError Unit :=
  match SplitKey key with
  | .error _ => .error (.errInvalidRecordType (.invalidKeyFormat key))
  | .ok (ns, _) =>
    match nv.get ns with
    | none => .error (.errInvalidRecordType (.noValidatorForNamespace ns))
    | some v => v.validate key value

/-- `NamespacedValidator.select`: if `validator_by_key` finds a validator,
delegate directly (the delegate's exceptions propagate unchanged).
Otherwise the code runs `try: SplitKey(key); raise ErrInvalidRecordType("no
validator for namespace: ...") except ErrInvalidRecordType: raise
ErrInvalidRecordType("invalid key format: {key}")` — the `raise` of the
no-validator error sits inside its own `try`, so the `except` catches it
too and every `none` outcome surfaces as the invalid-key-format error.
The inner `attempt` value mirrors the `try` body verbatim. -/
def NamespacedValidator.select (nv : NamespacedValidator) (key : Key)
    (values : List Bytes) : Except RecordError Nat :=
  match nv.validator_by_key key with
  | some v => v.select key values
  | none =>
    let attempt : Except RecordError Nat :=
      match SplitKey key with
      | .error e => .error e
      | .ok (ns, _) =>
        .error (.errInvalidRecordType (.noValidatorForNamespace ns))
    match attempt with
    | .error (.errInvalidRecordType _) =>
      .error (.errInvalidRecordType (.invalidKeyFormat key))
    | r => r

/-- A peer identifier: the raw bytes of `PeerID` (`ID.to_bytes()`); `ID`
equality is byte-wise equality of these bytes. -/
abbrev PeerID := Bytes

/-- `int.from_bytes(bs, "big")`: big-endian unsigned interpretation. -/
def fromBytesBE (bs : Bytes) : Nat :=
  bs.foldl (fun acc b => acc * 256 + b.val) 0

/-- `xor_distance` from src/libp2p/kad_dht/routing_table.py. -/
def xor_distance (a b : PeerID) : Nat :=
  Nat.xor (fromBytesBE a) (fromBytesBE b)

/-- `KBUCKET_SIZE = 20`. -/
def KBUCKET_SIZE : Nat := 20

/-- `RoutingTable.__init__` state: the local peer id, the capacity, and the
`peers` list (in insertion order, as the Python `list`). -/
structure RoutingTable where
  local_peer_id : PeerID
  kbucket_size : Nat
  peers : List PeerID
  deriving DecidableEq, Repr

/-- A freshly constructed routing table (`peers = []`). -/
def RoutingTable.mk0 (localId : PeerID) (k : Nat := KBUCKET_SIZE) :
    RoutingTable :=
  { local_peer_id := localId, kbucket_size := k, peers := [] }

/-- `RoutingTable.add`: no-op for the local id, for an already-present
peer, and for a full table; otherwise appends. -/
def RoutingTable.add (rt : RoutingTable) (p : PeerID) : RoutingTable :=
  if p = rt.local_peer_id then rt
  else if p ∈ rt.peers then rt
  else if rt.peers.length < rt.kbucket_size then
    { rt with peers := rt.peers ++ [p] }
  else rt

/-- `RoutingTable.remove`: `list.remove` drops the first occurrence;
`except ValueError: pass` makes absence a no-op — exactly `List.erase`. -/
def RoutingTable.remove (rt : RoutingTable) (p : PeerID) : RoutingTable :=
  { rt with peers := rt.peers.erase p }

/-- `RoutingTable.find`: linear scan returning the stored id if present. -/
def RoutingTable.find (rt : RoutingTable) (p : PeerID) : Option PeerID :=
  rt.peers.find? (fun q => q == p)

/-- `RoutingTable.size`. -/
def RoutingTable.size (rt : RoutingTable) : Nat := rt.peers.length

/-- `RoutingTable.all_peers`: a snapshot copy of the peers list. -/
def RoutingTable.all_peers (rt : RoutingTable) : List PeerID := rt.peers

/-- `count = count or self.kbucket_size`: Python `or` takes the default
both for `None` and for a falsy explicit `0`. -/
def resolveCount (rt : RoutingTable) (count : Option Nat) : Nat :=
  match count with
  | none => rt.kbucket_size
  | some n => if n = 0 then rt.kbucket_size else n

/-- The peers list decorated, in order, with the XOR distance to the target
and the position in the list (position `i` onward). -/
def decorateFrom (target : PeerID) (i : Nat) :
    List PeerID → List ((Nat × Nat) × PeerID)
  | [] => []
  | p :: ps => ((xor_distance target p, i), p) :: decorateFrom target (i + 1) ps

/-- Ordering on decorated entries: by distance, then by list position.
`heapq.nsmallest(count, distances, key=lambda x: x[0])` is documented as
`sorted(distances, key=...)[:count]` with a stable sort, i.e. ties in the
distance keep the list order — which is exactly a (total) sort by the
(distance, position) pair, the positions being pairwise distinct. -/
def keyLe (x y : (Nat × Nat) × PeerID) : Prop :=
  x.1.1 < y.1.1 ∨ (x.1.1 = y.1.1 ∧ x.1.2 ≤ y.1.2)

instance : DecidableRel keyLe := fun _ _ =>
  inferInstanceAs (Decidable (_ ∨ _))

instance : IsTotal ((Nat × Nat) × PeerID) keyLe where
  total x y := by
    rcases Nat.lt_trichotomy x.1.1 y.1.1 with h | h | h
    · exact Or.inl (Or.inl h)
    · rcases Nat.le_total x.1.2 y.1.2 with h2 | h2
      · exact Or.inl (Or.inr ⟨h, h2⟩)
      · exact Or.inr (Or.inr ⟨h.symm, h2⟩)
    · exact Or.inr (Or.inl h)

instance : IsTrans ((Nat × Nat) × PeerID) keyLe where
  trans x y z hxy hyz := by
    rcases hxy with h1 | ⟨e1, l1⟩ <;> rcases hyz with h2 | ⟨e2, l2⟩
    · exact Or.inl (Nat.lt_trans h1 h2)
    · exact Or.inl (e2 ▸ h1)
    · exact Or.inl (e1 ▸ h2)
    · exact Or.inr ⟨e1.trans e2, Nat.le_trans l1 l2⟩

/-- `RoutingTable.closest_peers`: decorate every stored peer with its XOR
distance to the target, take the `count` smallest by distance with ties in
list order (see `keyLe`), and return the peers. -/
def RoutingTable.closest_peers (rt : RoutingTable) (target : PeerID)
    (count : Option Nat := none) : List PeerID :=
  (((decorateFrom target 0 rt.peers).insertionSort keyLe).take
      (resolveCount rt count)).map (fun x => x.2)

/-- Natural (lexicographic) byte ordering on identifiers, as Python
compares `bytes`; used only to state the spec's tie-break rule. -/
def byteLe : Bytes → Bytes → Bool
  | [], _ => true
  | _ :: _, [] => false
  | a :: as, b :: bs =>
    if a < b then true else if a = b then byteLe as bs else false

/-- A membership mutation of the routing table. -/
inductive RTOp where
  | addOp (p : PeerID) : RTOp
  | removeOp (p : PeerID) : RTOp

/-- Apply one mutation. -/
def applyOp (rt : RoutingTable) : RTOp → RoutingTable
  | .addOp p => rt.add p
  | .removeOp p => rt.remove p

/-- Apply a sequence of mutations in order. -/
def applyOps (ops : List RTOp) (rt : RoutingTable) : RoutingTable :=
  ops.foldl applyOp rt

/-! ## Theorems -/

/-- Shorthand for writing Python string literals as `Key`s. -/
def str (s : String) : Key := s.toList

/-- The single optional leading slash stripped, as in `SplitKey`. -/
def stripLead (key : Key) : Key :=
  if key.head? = some '/' then key.tail else key

theorem splitOnceSlash_eq_ite (s : Key) :
    splitOnceSlash s =
      if '/' ∈ s then
        some (s.takeWhile (fun c => c != '/'), (s.dropWhile (fun c => c != '/')).tail)
      else none := by
  induction s with
  | nil => simp [splitOnceSlash]
  | cons c cs ih =>
    by_cases hc : c = '/'
    · subst hc
      simp [splitOnceSlash, List.takeWhile_cons, List.dropWhile_cons]
    · by_cases h2 : '/' ∈ cs
      · simp [splitOnceSlash, ih, hc, h2, List.takeWhile_cons, List.dropWhile_cons,
          List.mem_cons, Ne.symm hc]
      · simp [splitOnceSlash, ih, hc, h2, List.mem_cons, Ne.symm hc]

theorem splitOnceSlash_append (ns p : Key) (h : '/' ∉ ns) :
    splitOnceSlash (ns ++ '/' :: p) = some (ns, p) := by
  induction ns with
  | nil => simp [splitOnceSlash]
  | cons c cs ih =>
    have hc : c ≠ '/' := fun hcc => h (hcc ▸ List.mem_cons_self c cs)
    have hcs : '/' ∉ cs := fun hm => h (List.mem_cons_of_mem c hm)
    simp [splitOnceSlash, hc, ih hcs]

/-- C8: `SplitKey` fails exactly for an empty key, for a key with no slash
left after stripping the single optional leading slash, for an empty
namespace segment, or for an empty path segment; every failure is of the
`ErrInvalidRecordType` class (the spec's `InvalidKeyFormat` kind); in
particular the four sample inputs fail. -/
theorem splitKey_error_characterisation : ∀ key : Key,
    ((∃ e, SplitKey key = .error e) ↔
      (key = [] ∨ '/' ∉ stripLead key ∨
        (stripLead key).takeWhile (fun c => c != '/') = [] ∨
        ((stripLead key).dropWhile (fun c => c != '/')).tail = [])) ∧
    (∀ e, SplitKey key = .error e → ∃ m, e = .errInvalidRecordType m) ∧
    (∃ m, SplitKey (str "") = .error (.errInvalidRecordType m)) ∧
    (∃ m, SplitKey (str "noSlash") = .error (.errInvalidRecordType m)) ∧
    (∃ m, SplitKey (str "//path") = .error (.errInvalidRecordType m)) ∧
    (∃ m, SplitKey (str "namespace/") = .error (.errInvalidRecordType m)) := by
  intro key
  refine ⟨?_, ?_, ⟨.emptyKey, by decide⟩, ⟨.invalidKeyFormat (str "noSlash"), by decide⟩,
    ⟨.emptyNamespace, by decide⟩, ⟨.emptyPath, by decide⟩⟩
  · unfold SplitKey stripLead
    by_cases hk : key = []
    · simp [hk]
    · simp only [hk, if_false, if_neg hk]
      rw [splitOnceSlash_eq_ite]
      by_cases hs : '/' ∈ (if key.head? = some '/' then key.tail else key)
      · simp only [hs, if_pos hs, if_true]
        set s := if key.head? = some '/' then key.tail else key with hsdef
        by_cases hns : s.takeWhile (fun c => c != '/') = []
        · simp [hns, hk]
        · by_cases hp : (s.dropWhile (fun c => c != '/')).tail = []
          · simp [hns, hp, hk]
          · simp [hns, hp, hk]
      · simp [hs, hk]
  · intro e he
    unfold SplitKey at he
    dsimp only at he
    repeat' split at he
    all_goals
      first
        | (injection he with h
           exact ⟨_, h.symm⟩)
        | exact Except.noConfusion he

theorem splitKey_error_characterisation_witness :
    SplitKey (str "noSlash") =
      .error (.errInvalidRecordType (.invalidKeyFormat (str "noSlash"))) ∧
    (∃ m, RecordError.errInvalidRecordType (.invalidKeyFormat (str "noSlash")) =
      .errInvalidRecordType m) :=
  ⟨by decide, (splitKey_error_characterisation (str "noSlash")).2.1 _ (by decide)⟩

/-- C9: for a non-empty slash-free namespace and a non-empty path (which
may itself contain slashes), the key with and without its leading slash
both split to the identical `(namespace, path)` pair. -/
theorem splitKey_leading_slash_agnostic : ∀ ns p : Key, ns ≠ [] → p ≠ [] →
    '/' ∉ ns →
    SplitKey ('/' :: ns ++ '/' :: p) = .ok (ns, p) ∧
    SplitKey (ns ++ '/' :: p) = .ok (ns, p) := by
  intro ns p hns hp hsl
  have hsplit := splitOnceSlash_append ns p hsl
  constructor
  · simp [SplitKey, hsplit, hns, hp]
  · have hh : List.head? ns ≠ some '/' := by
      obtain ⟨c, cs, rfl⟩ := List.exists_cons_of_ne_nil hns
      have hc : c ≠ '/' := fun hcc => hsl (hcc ▸ List.mem_cons_self c cs)
      simp [hc]
    simp [SplitKey, hh, hsplit, hns, hp]

theorem splitKey_leading_slash_agnostic_witness :
    (str "namespace") ≠ [] ∧ (str "path/with/slashes") ≠ [] ∧
    '/' ∉ (str "namespace") ∧
    SplitKey ('/' :: (str "namespace") ++ '/' :: (str "path/with/slashes")) =
      .ok (str "namespace", str "path/with/slashes") ∧
    SplitKey ((str "namespace") ++ '/' :: (str "path/with/slashes")) =
      .ok (str "namespace", str "path/with/slashes") :=
  ⟨by decide, by decide, by decide,
    (splitKey_leading_slash_agnostic (str "namespace") (str "path/with/slashes")
      (by decide) (by decide) (by decide)).1,
    (splitKey_leading_slash_agnostic (str "namespace") (str "path/with/slashes")
      (by decide) (by decide) (by decide)).2⟩

/-- C1 counterexample: two records built from the same `(key, value,
author)` but with an absent vs. a present signature are NOT equal under
`Record.__eq__`, which also compares the signature. -/
theorem record_eq_depends_on_signature :
    recordEq
      (MakePutRecord (str "/a/b") [1] (some (str "au")) none 5)
      (MakePutRecord (str "/a/b") [1] (some (str "au")) (some [2]) 9) = false := by
  decide

/-- C1 amended: `Record.__eq__` compares exactly `(key, value, author,
signature)` — the timestamp is never part of record identity, but the
signature is; two records built from the same `(key, value, author,
signature)` at different times are equal. -/
theorem record_eq_characterisation : ∀ (a b : Record) (k : Key) (v : Bytes)
    (au : Option Key) (sg : Option Bytes) (t t' : Nat),
    (recordEq a b = true ↔
      (a.key = b.key ∧ a.value = b.value ∧ a.author = b.author ∧
        a.signature = b.signature)) ∧
    recordEq (MakePutRecord k v au sg t) (MakePutRecord k v au sg t') = true := by
  intro a b k v au sg t t'
  constructor
  · simp [recordEq, Bool.and_eq_true, beq_iff_eq, and_assoc]
  · simp [recordEq, MakePutRecord]

/-- The concrete environment used by witnesses and counterexamples: every
external decoder fails. -/
def env0 : CryptoEnv :=
  { b58decode := fun _ => .error "bad base58",
    multihashDecode := fun _ => .error "bad multihash",
    deserializePublicKey := fun _ => .error "bad protobuf" }

/-- C5: `PublicKeyValidator.select` fails with the empty-candidate-set
error (`ErrInvalidRecord("no values to select from")`) on an empty list;
it returns an index iff that index is 0 and validation of the first
candidate succeeded; and a validation failure of the first candidate
propagates unchanged. -/
theorem pk_select_contract : ∀ (env : CryptoEnv) (key : Key)
    (values : List Bytes),
    (pkSelect env key [] = .error (.errInvalidRecord .noValuesToSelectFrom)) ∧
    (∀ i, pkSelect env key values = .ok i ↔
      (i = 0 ∧ ∃ v rest, values = v :: rest ∧ pkValidate env key v = .ok ())) ∧
    (∀ v rest e, values = v :: rest → pkValidate env key v = .error e →
      pkSelect env key values = .error e) := by
  intro env key values
  refine ⟨rfl, ?_, ?_⟩
  · intro i
    cases values with
    | nil =>
      simp [pkSelect]
    | cons v vs =>
      cases hv : pkValidate env key v with
      | error e =>
        simp only [pkSelect, hv]
        constructor
        · intro h
          exact Except.noConfusion h
        · rintro ⟨hi, v', rest', heq, hval⟩
          obtain ⟨rfl, rfl⟩ : v' = v ∧ rest' = vs :=
            ⟨(List.cons.injEq _ _ _ _ ▸ heq).1.symm,
             (List.cons.injEq _ _ _ _ ▸ heq).2.symm⟩
          rw [hv] at hval
          exact Except.noConfusion hval
      | ok u =>
        simp only [pkSelect, hv]
        constructor
        · intro h
          injection h with h
          exact ⟨h.symm, v, vs, rfl, by rw [hv]⟩
        · rintro ⟨rfl, _⟩
          rfl
  · rintro v rest e rfl hval
    simp [pkSelect, hval]

theorem pk_select_contract_witness :
    (([([1] : Bytes)] : List Bytes) = [1] :: []) ∧
    pkValidate env0 (str "/pk/x") [1] =
      .error (.errInvalidMultihash (.invalidPeerIdInKey "bad base58")) ∧
    pkSelect env0 (str "/pk/x") [[1]] =
      .error (.errInvalidMultihash (.invalidPeerIdInKey "bad base58")) :=
  ⟨rfl, by decide,
    (pk_select_contract env0 (str "/pk/x") [[1]]).2.2 [1] []
      (.errInvalidMultihash (.invalidPeerIdInKey "bad base58")) rfl (by decide)⟩

/-- A validator whose `select` always raises its own distinctive error;
used to observe what `NamespacedValidator.select` does with a delegate
failure. -/
def boomValidator : Validator :=
  { validate := fun _ _ => .ok (),
    select := fun _ _ => .error (.errInvalidMultihash (.invalidPeerIdInKey "boom")) }

/-- C2 counterexample: two different registered validators failing during
`select` surface two different errors at the registry boundary — each is
the delegate's own exception, propagated unchanged, not any uniform
re-surfaced failure kind. -/
theorem namespaced_select_propagates_delegate_error :
    ((NamespacedValidator.default env0).add_validator (str "cu")
        boomValidator).select (str "/cu/x") [[1]] =
      .error (.errInvalidMultihash (.invalidPeerIdInKey "boom")) ∧
    (NamespacedValidator.default env0).select (str "/pk/x") [] =
      .error (.errInvalidRecord .noValuesToSelectFrom) ∧
    RecordError.errInvalidMultihash (.invalidPeerIdInKey "boom") ≠
      .errInvalidRecord .noValuesToSelectFrom := by
  refine ⟨by decide, by decide, by decide⟩

/-- C2 amended: when `validator_by_key` resolves a validator, the
registry's `select` is exactly the delegate's `select` — any failure the
registered validator raises propagates unchanged to the caller (there is
no catching or re-wrapping at the registry boundary). -/
theorem namespaced_select_delegates : ∀ (nv : NamespacedValidator)
    (key : Key) (values : List Bytes) (v : Validator),
    nv.validator_by_key key = some v →
    nv.select key values = v.select key values := by
  intro nv key values v h
  unfold NamespacedValidator.select
  rw [h]

theorem namespaced_select_delegates_witness :
    (NamespacedValidator.default env0).validator_by_key (str "/pk/x") =
      some (PublicKeyValidator env0) ∧
    (NamespacedValidator.default env0).select (str "/pk/x") [] =
      (PublicKeyValidator env0).select (str "/pk/x") [] :=
  ⟨rfl, namespaced_select_delegates (NamespacedValidator.default env0)
    (str "/pk/x") [] (PublicKeyValidator env0) rfl⟩

/-- C3 (code bug): `NamespacedValidator.validate` distinguishes the two
failures — `invalidKeyFormat` for a malformed key, `noValidatorForNamespace`
for a well-formed key with an unregistered namespace — but
`NamespacedValidator.select` raises its no-validator error inside its own
`try` block, catches it itself, and reports `invalidKeyFormat` for the
well-formed unregistered-namespace key as well. -/
theorem namespaced_select_no_validator_collapses_to_key_format :
    (NamespacedValidator.default env0).validate (str "/unknown/path") [] =
      .error (.errInvalidRecordType (.noValidatorForNamespace (str "unknown"))) ∧
    (NamespacedValidator.default env0).select (str "/unknown/path") [] =
      .error (.errInvalidRecordType (.invalidKeyFormat (str "/unknown/path"))) ∧
    (NamespacedValidator.default env0).validate (str "noSlash") [] =
      .error (.errInvalidRecordType (.invalidKeyFormat (str "noSlash"))) ∧
    (NamespacedValidator.default env0).select (str "noSlash") [] =
      .error (.errInvalidRecordType (.invalidKeyFormat (str "noSlash"))) ∧
    Msg.noValidatorForNamespace (str "unknown") ≠
      Msg.invalidKeyFormat (str "/unknown/path") := by
  refine ⟨by decide, by decide, by decide, by decide, by decide⟩

/-- 25 pairwise distinct peer ids (single-byte ids 0..24), none equal to
the empty local id. -/
def peers25 : List PeerID := (List.range 25).map (fun i => [Fin.ofNat i])

/-- C6: `add` is a no-op exactly for the local id, an already-present peer,
or a full table; otherwise it appends and grows the size by one; it is
idempotent; adding the local id never changes the table; and adding the
25 distinct `peers25` to an empty capacity-20 table accepts exactly the
first 20 and rejects the remainder. -/
theorem routing_add_contract : ∀ (rt : RoutingTable) (p : PeerID),
    (rt.add p = rt ↔
      (p = rt.local_peer_id ∨ p ∈ rt.peers ∨
        rt.kbucket_size ≤ rt.peers.length)) ∧
    ((rt.add p).size =
      if p = rt.local_peer_id ∨ p ∈ rt.peers ∨
          rt.kbucket_size ≤ rt.peers.length
        then rt.size else rt.size + 1) ∧
    ((rt.add p).add p = rt.add p) ∧
    (rt.add rt.local_peer_id = rt) ∧
    peers25.Nodup ∧ [] ∉ peers25 ∧
    ((peers25.foldl RoutingTable.add (RoutingTable.mk0 [] 20)).size = 20 ∧
      (peers25.foldl RoutingTable.add (RoutingTable.mk0 [] 20)).peers =
        peers25.take 20) := by
  intro rt p
  obtain ⟨l, k, ps⟩ := rt
  refine ⟨?_, ?_, ?_, ?_, by decide, by decide, by decide, by decide⟩
  · unfold RoutingTable.add
    dsimp only
    split_ifs with h1 h2 h3
    · simp [h1]
    · simp [h2]
    · have hlen : ps ++ [p] ≠ ps := by
        intro hcon
        have := congrArg List.length hcon
        simp at this
      constructor
      · intro hcon
        injection hcon with _ _ hps
        exact absurd hps hlen
      · intro hcon
        rcases hcon with hc | hc | hc
        · exact absurd hc h1
        · exact absurd hc h2
        · omega
    · simp
      omega
  · unfold RoutingTable.add RoutingTable.size
    dsimp only
    split_ifs with h1 h2 h3 <;> (first | omega | (simp_all; omega) | simp_all)
  · by_cases h1 : p = l
    · simp [RoutingTable.add, h1]
    · by_cases h2 : p ∈ ps
      · simp [RoutingTable.add, h1, h2]
      · by_cases h3 : ps.length < k
        · have hfst :
              RoutingTable.add ⟨l, k, ps⟩ p = ⟨l, k, ps ++ [p]⟩ := by
            simp [RoutingTable.add, h1, h2, h3]
          rw [hfst]
          have hmem : p ∈ ps ++ [p] := by simp
          simp [RoutingTable.add, h1, hmem]
        · simp [RoutingTable.add, h1, h2, h3]
  · unfold RoutingTable.add
    simp

/-- The three state invariants of the routing table. -/
def RTInv (rt : RoutingTable) : Prop :=
  rt.peers.length ≤ rt.kbucket_size ∧
  rt.local_peer_id ∉ rt.peers ∧
  rt.peers.Nodup

theorem rtInv_applyOp (rt : RoutingTable) (op : RTOp) (h : RTInv rt) :
    RTInv (applyOp rt op) := by
  obtain ⟨hlen, hloc, hnd⟩ := h
  cases op with
  | addOp p =>
    unfold applyOp RoutingTable.add
    dsimp only
    split_ifs with h1 h2 h3
    · exact ⟨hlen, hloc, hnd⟩
    · exact ⟨hlen, hloc, hnd⟩
    · refine ⟨by simpa using h3, ?_, ?_⟩
      · simp only [List.mem_append, List.mem_singleton]
        rintro (hc | hc)
        · exact hloc hc
        · exact h1 hc.symm
      · simp [List.nodup_append, hnd, h2]
    · exact ⟨hlen, hloc, hnd⟩
  | removeOp p =>
    unfold applyOp RoutingTable.remove
    refine ⟨le_trans (List.length_erase_le _ _) hlen, ?_, hnd.erase p⟩
    intro hc
    exact hloc (List.mem_of_mem_erase hc)

/-- The invariants are preserved by any sequence of operations. -/
theorem rtInv_applyOps (ops : List RTOp) (rt : RoutingTable) (h : RTInv rt) :
    RTInv (applyOps ops rt) := by
  induction ops generalizing rt with
  | nil => exact h
  | cons op rest ih => exact ih _ (rtInv_applyOp rt op h)

/-- C7: every state reachable from a freshly constructed routing table by
any sequence of `add`/`remove` operations satisfies the three invariants:
size bounded by the capacity, local id not a member, no duplicates. -/
theorem routing_table_invariants : ∀ (localId : PeerID) (k : Nat)
    (ops : List RTOp), RTInv (applyOps ops (RoutingTable.mk0 localId k)) := by
  intro localId k ops
  refine rtInv_applyOps ops _ ?_
  exact ⟨by simp [RoutingTable.mk0], by simp [RoutingTable.mk0],
    by simp [RoutingTable.mk0]⟩

theorem fromBytesBE_foldl_acc (bs : Bytes) (a : Nat) :
    bs.foldl (fun acc b => acc * 256 + b.val) a =
      a * 256 ^ bs.length + fromBytesBE bs := by
  induction bs generalizing a with
  | nil => simp [fromBytesBE]
  | cons b tl ih =>
    simp only [List.foldl_cons, List.length_cons, fromBytesBE]
    rw [ih (a * 256 + b.val), ih (0 * 256 + b.val)]
    ring

theorem fromBytesBE_lt (bs : Bytes) : fromBytesBE bs < 256 ^ bs.length := by
  induction bs with
  | nil => simp [fromBytesBE]
  | cons b tl ih =>
    have hb : b.val < 256 := b.isLt
    show List.foldl _ _ (b :: tl) < _
    rw [List.foldl_cons, fromBytesBE_foldl_acc]
    simp only [List.length_cons]
    have h1 : (0 * 256 + b.val) * 256 ^ tl.length + fromBytesBE tl <
        (b.val + 1) * 256 ^ tl.length := by
      simp only [Nat.zero_mul, Nat.zero_add, Nat.add_mul, Nat.one_mul]
      omega
    calc (0 * 256 + b.val) * 256 ^ tl.length + fromBytesBE tl
        < (b.val + 1) * 256 ^ tl.length := h1
      _ ≤ 256 * 256 ^ tl.length := Nat.mul_le_mul_right _ (by omega)
      _ = 256 ^ (tl.length + 1) := by ring

theorem fromBytesBE_injOn (as bs : Bytes) (hlen : as.length = bs.length)
    (h : fromBytesBE as = fromBytesBE bs) : as = bs := by
  induction as generalizing bs with
  | nil =>
    cases bs with
    | nil => rfl
    | cons b tl => simp at hlen
  | cons a atl ih =>
    cases bs with
    | nil => simp at hlen
    | cons b btl =>
      simp only [List.length_cons, Nat.add_right_cancel_iff] at hlen
      have ha := fromBytesBE_lt atl
      have hb := fromBytesBE_lt btl
      have hEq : a.val * 256 ^ atl.length + fromBytesBE atl =
          b.val * 256 ^ btl.length + fromBytesBE btl := by
        have h1 : fromBytesBE (a :: atl) =
            a.val * 256 ^ atl.length + fromBytesBE atl := by
          show List.foldl _ 0 (a :: atl) = _
          rw [List.foldl_cons, fromBytesBE_foldl_acc]
          simp
        have h2 : fromBytesBE (b :: btl) =
            b.val * 256 ^ btl.length + fromBytesBE btl := by
          show List.foldl _ 0 (b :: btl) = _
          rw [List.foldl_cons, fromBytesBE_foldl_acc]
          simp
        rw [h1, h2] at h
        exact h
      rw [hlen] at ha hEq
      have hval : a.val = b.val := by
        rcases Nat.lt_trichotomy a.val b.val with hlt | heq | hgt
        · exfalso
          have hstep : a.val * 256 ^ btl.length + fromBytesBE atl <
              b.val * 256 ^ btl.length := by
            calc a.val * 256 ^ btl.length + fromBytesBE atl
                < a.val * 256 ^ btl.length + 256 ^ btl.length :=
                  Nat.add_lt_add_left ha _
              _ = (a.val + 1) * 256 ^ btl.length := by ring
              _ ≤ b.val * 256 ^ btl.length :=
                  Nat.mul_le_mul_right _ hlt
          exact absurd hEq
            (Nat.ne_of_lt (lt_of_lt_of_le hstep (Nat.le_add_right _ _)))
        · exact heq
        · exfalso
          have hstep : b.val * 256 ^ btl.length + fromBytesBE btl <
              a.val * 256 ^ btl.length := by
            calc b.val * 256 ^ btl.length + fromBytesBE btl
                < b.val * 256 ^ btl.length + 256 ^ btl.length :=
                  Nat.add_lt_add_left hb _
              _ = (b.val + 1) * 256 ^ btl.length := by ring
              _ ≤ a.val * 256 ^ btl.length :=
                  Nat.mul_le_mul_right _ hgt
          exact absurd hEq.symm
            (Nat.ne_of_lt (lt_of_lt_of_le hstep (Nat.le_add_right _ _)))
      have hgi : a.val * 256 ^ btl.length = b.val * 256 ^ btl.length := by
        rw [hval]
      have htail : fromBytesBE atl = fromBytesBE btl := by omega
      have hab : a = b := Fin.ext hval
      rw [hab, ih btl hlen htail]

theorem xor_distance_inj (t x y : PeerID) (hlen : x.length = y.length)
    (h : xor_distance t x = xor_distance t y) : x = y := by
  unfold xor_distance at h
  have hx : fromBytesBE x = fromBytesBE y := by
    have h1 : Nat.xor (fromBytesBE t) (Nat.xor (fromBytesBE t) (fromBytesBE x)) =
        fromBytesBE x := Nat.xor_cancel_left _ _
    have h2 : Nat.xor (fromBytesBE t) (Nat.xor (fromBytesBE t) (fromBytesBE y)) =
        fromBytesBE y := Nat.xor_cancel_left _ _
    rw [← h1, ← h2, h]
  exact fromBytesBE_injOn x y hlen hx

theorem decorateFrom_map_snd (t : PeerID) (i : Nat) (ps : List PeerID) :
    (decorateFrom t i ps).map (fun x => x.2) = ps := by
  induction ps generalizing i with
  | nil => rfl
  | cons p tl ih => simp [decorateFrom, ih]

theorem decorateFrom_length (t : PeerID) (i : Nat) (ps : List PeerID) :
    (decorateFrom t i ps).length = ps.length := by
  induction ps generalizing i with
  | nil => rfl
  | cons p tl ih => simp [decorateFrom, ih]

theorem decorateFrom_mem (t : PeerID) (i : Nat) (ps : List PeerID)
    {x : (Nat × Nat) × PeerID} (hx : x ∈ decorateFrom t i ps) :
    x.2 ∈ ps ∧ x.1.1 = xor_distance t x.2 := by
  induction ps generalizing i with
  | nil => cases hx
  | cons p tl ih =>
    rcases List.mem_cons.mp hx with rfl | hx
    · exact ⟨List.mem_cons_self _ _, rfl⟩
    · obtain ⟨h1, h2⟩ := ih (i + 1) hx
      exact ⟨List.mem_cons_of_mem _ h1, h2⟩

/-- Position of a peer in the stored peers list (index of its first
occurrence); expresses the insertion-order tie-break of the stable sort. -/
def posIn (p : PeerID) : List PeerID → Nat
  | [] => 0
  | q :: qs => if p = q then 0 else posIn p qs + 1

theorem decorateFrom_index (t : PeerID) (ps : List PeerID) (hnd : ps.Nodup)
    (i : Nat) {x : (Nat × Nat) × PeerID} (hx : x ∈ decorateFrom t i ps) :
    x.1.2 = posIn x.2 ps + i := by
  induction ps generalizing i with
  | nil => cases hx
  | cons p tl ih =>
    obtain ⟨hp, htl⟩ := List.nodup_cons.mp hnd
    rcases List.mem_cons.mp hx with rfl | hx
    · simp [posIn]
    · have hxtl := (decorateFrom_mem t (i + 1) tl hx).1
      have hne : x.2 ≠ p := fun hcon => hp (by rw [← hcon]; exact hxtl)
      rw [posIn, if_neg hne]
      have := ih htl (i + 1) hx
      omega

theorem decorateFrom_pairwise_ne (t : PeerID) (ps : List PeerID)
    (hnd : ps.Nodup) (i : Nat) :
    (decorateFrom t i ps).Pairwise (fun x y => x.2 ≠ y.2) := by
  induction ps generalizing i with
  | nil => exact List.Pairwise.nil
  | cons p tl ih =>
    obtain ⟨hp, htl⟩ := List.nodup_cons.mp hnd
    refine List.Pairwise.cons (fun y hy hcon => ?_) (ih htl (i + 1))
    have hcon' : p = y.2 := hcon
    refine hp ?_
    rw [hcon']
    exact (decorateFrom_mem t (i + 1) tl hy).1

theorem closest_peers_length (rt : RoutingTable) (target : PeerID)
    (count : Option Nat) :
    (rt.closest_peers target count).length =
      min (resolveCount rt count) rt.peers.length := by
  unfold RoutingTable.closest_peers
  rw [List.length_map, List.length_take,
    (List.perm_insertionSort keyLe _).length_eq, decorateFrom_length]

theorem closest_peers_subset (rt : RoutingTable) (target : PeerID)
    (count : Option Nat) {q : PeerID} (hq : q ∈ rt.closest_peers target count) :
    q ∈ rt.peers := by
  unfold RoutingTable.closest_peers at hq
  rcases List.mem_map.mp hq with ⟨x, hx, rfl⟩
  have hx1 := List.take_subset _ _ hx
  have hx2 := ((List.perm_insertionSort keyLe _).mem_iff).mp hx1
  exact (decorateFrom_mem _ _ _ hx2).1

theorem closest_peers_taken_facts (rt : RoutingTable) (target : PeerID)
    (count : Option Nat) {x : (Nat × Nat) × PeerID}
    (hx : x ∈ ((decorateFrom target 0 rt.peers).insertionSort keyLe).take
      (resolveCount rt count)) :
    x.2 ∈ rt.peers ∧ x.1.1 = xor_distance target x.2 := by
  have hx1 := List.take_subset _ _ hx
  have hx2 := ((List.perm_insertionSort keyLe _).mem_iff).mp hx1
  exact decorateFrom_mem _ _ _ hx2

theorem closest_peers_taken_pairwise (rt : RoutingTable) (target : PeerID)
    (count : Option Nat) :
    (((decorateFrom target 0 rt.peers).insertionSort keyLe).take
      (resolveCount rt count)).Pairwise keyLe :=
  (List.sorted_insertionSort keyLe _).sublist (List.take_sublist _ _)

theorem closest_peers_sorted (rt : RoutingTable) (target : PeerID)
    (count : Option Nat) :
    (rt.closest_peers target count).Pairwise
      (fun p q => xor_distance target p ≤ xor_distance target q) := by
  unfold RoutingTable.closest_peers
  refine (List.pairwise_map).mpr ?_
  refine (closest_peers_taken_pairwise rt target count).imp_of_mem
    (fun hx hy hr => ?_)
  have ex := (closest_peers_taken_facts rt target count hx).2
  have ey := (closest_peers_taken_facts rt target count hy).2
  rcases hr with h | ⟨h, _⟩
  · rw [← ex, ← ey]
    exact Nat.le_of_lt h
  · rw [← ex, ← ey, h]

theorem closest_peers_taken_index (rt : RoutingTable) (target : PeerID)
    (count : Option Nat) (hnd : rt.peers.Nodup) {x : (Nat × Nat) × PeerID}
    (hx : x ∈ ((decorateFrom target 0 rt.peers).insertionSort keyLe).take
      (resolveCount rt count)) :
    x.1.2 = posIn x.2 rt.peers := by
  have hx1 := List.take_subset _ _ hx
  have hx2 := ((List.perm_insertionSort keyLe _).mem_iff).mp hx1
  have := decorateFrom_index target rt.peers hnd 0 hx2
  omega

theorem closest_peers_taken_pairwise_ne (rt : RoutingTable) (target : PeerID)
    (count : Option Nat) (hnd : rt.peers.Nodup) :
    ((((decorateFrom target 0 rt.peers).insertionSort keyLe).take
      (resolveCount rt count))).Pairwise (fun x y => x.2 ≠ y.2) := by
  have h0 := decorateFrom_pairwise_ne target rt.peers hnd 0
  have hperm := List.perm_insertionSort keyLe (decorateFrom target 0 rt.peers)
  have h1 := (hperm.pairwise_iff (fun hab => Ne.symm hab)).mpr h0
  exact h1.sublist (List.take_sublist _ _)

theorem closest_peers_tie_stable (rt : RoutingTable) (target : PeerID)
    (count : Option Nat) (hnd : rt.peers.Nodup) :
    (rt.closest_peers target count).Pairwise
      (fun p q => xor_distance target p = xor_distance target q →
        posIn p rt.peers ≤ posIn q rt.peers) := by
  unfold RoutingTable.closest_peers
  refine (List.pairwise_map).mpr ?_
  refine (closest_peers_taken_pairwise rt target count).imp_of_mem
    (fun hx hy hr => ?_)
  intro hdist
  have ex := (closest_peers_taken_facts rt target count hx).2
  have ey := (closest_peers_taken_facts rt target count hy).2
  have ix := closest_peers_taken_index rt target count hnd hx
  have iy := closest_peers_taken_index rt target count hnd hy
  rcases hr with h | ⟨_, hle⟩
  · rw [ex, ey] at h
    omega
  · omega

theorem closest_peers_strict (rt : RoutingTable) (target : PeerID)
    (count : Option Nat) (L : Nat) (hnd : rt.peers.Nodup)
    (hw : ∀ p ∈ rt.peers, p.length = L) :
    (rt.closest_peers target count).Pairwise
      (fun p q => xor_distance target p < xor_distance target q) := by
  unfold RoutingTable.closest_peers
  refine (List.pairwise_map).mpr ?_
  have hpair := (closest_peers_taken_pairwise rt target count).and
    (closest_peers_taken_pairwise_ne rt target count hnd)
  refine hpair.imp_of_mem (fun hx hy hr => ?_)
  obtain ⟨hk, hne⟩ := hr
  obtain ⟨mx, ex⟩ := closest_peers_taken_facts rt target count hx
  obtain ⟨my, ey⟩ := closest_peers_taken_facts rt target count hy
  rcases hk with h | ⟨h, _⟩
  · rw [ex, ey] at h
    exact h
  · exfalso
    rw [ex, ey] at h
    exact hne (xor_distance_inj target _ _
      (by rw [hw _ mx, hw _ my]) h)

/-- A table holding two distinct identifiers `[1]` and `[0, 1]` that read
as the same big-endian integer, so their XOR distances to every target
tie exactly. -/
def rtTie : RoutingTable :=
  { local_peer_id := [], kbucket_size := 20, peers := [[1], [0, 1]] }

/-- C4 counterexample: on an exact distance tie the code keeps the stored
list order (`[1]` before `[0, 1]`), not the identifiers' natural byte
ordering (`[0, 1]` before `[1]`); and an explicit count of 0 does not
bound the result by 0. -/
theorem closest_peers_tie_not_byte_ordered :
    rtTie.closest_peers [1] (some 2) = [[1], [0, 1]] ∧
    xor_distance [1] [1] = xor_distance [1] [0, 1] ∧
    byteLe [0, 1] [1] = true ∧
    ¬ (rtTie.closest_peers [1] (some 2)).Pairwise
        (fun p q => xor_distance [1] p < xor_distance [1] q ∨
          (xor_distance [1] p = xor_distance [1] q ∧ byteLe p q = true)) ∧
    (rtTie.closest_peers [1] (some 0)).length = 2 := by
  have hlist : rtTie.closest_peers [1] (some 2) = [[1], [0, 1]] := by decide
  refine ⟨hlist, by decide, by decide, ?_, by decide⟩
  rw [hlist]
  intro hp
  have h12 := (List.pairwise_cons.mp hp).1 [0, 1] (List.mem_cons_self _ _)
  rcases h12 with h | ⟨_, hb⟩
  · revert h
    decide
  · revert hb
    decide

/-- C4 amended: `closest_peers` returns at most `resolveCount` entries (at
most `k` for an explicit nonzero count `k`; an explicit 0 and an
unspecified count both default to the capacity); every entry is a member
of `all_peers()`; entries are ordered by ascending XOR distance to the
target, with exact ties kept in stored-list (insertion) order — strictly
ascending when the stored identifiers are distinct and of one fixed
width. -/
theorem closest_peers_contract : ∀ (rt : RoutingTable) (target : PeerID)
    (count : Option Nat) (L : Nat),
    (rt.closest_peers target count).length ≤ resolveCount rt count ∧
    (∀ k, count = some k → k ≠ 0 →
      (rt.closest_peers target count).length ≤ k) ∧
    (∀ q ∈ rt.closest_peers target count, q ∈ rt.all_peers) ∧
    (rt.closest_peers target count).Pairwise
      (fun p q => xor_distance target p ≤ xor_distance target q) ∧
    rt.closest_peers target none =
      rt.closest_peers target (some rt.kbucket_size) ∧
    (rt.peers.Nodup →
      (rt.closest_peers target count).Pairwise
        (fun p q => xor_distance target p = xor_distance target q →
          posIn p rt.peers ≤ posIn q rt.peers)) ∧
    (rt.peers.Nodup → (∀ p ∈ rt.peers, p.length = L) →
      (rt.closest_peers target count).Pairwise
        (fun p q => xor_distance target p < xor_distance target q)) := by
  intro rt target count L
  refine ⟨?_, ?_, ?_, closest_peers_sorted rt target count, ?_,
    closest_peers_tie_stable rt target count,
    closest_peers_strict rt target count L⟩
  · rw [closest_peers_length]
    exact Nat.min_le_left _ _
  · rintro k rfl hk0
    rw [closest_peers_length]
    have hres : resolveCount rt (some k) = k := by
      simp [resolveCount, hk0]
    rw [hres]
    exact Nat.min_le_left _ _
  · intro q hq
    exact closest_peers_subset rt target count hq
  · simp [RoutingTable.closest_peers, resolveCount]

/-- A fixed-width duplicate-free table for the contract witness. -/
def rtW : RoutingTable :=
  { local_peer_id := [], kbucket_size := 20, peers := [[5], [1], [3]] }

theorem closest_peers_contract_witness :
    rtW.peers.Nodup ∧ (∀ p ∈ rtW.peers, p.length = 1) ∧
    (rtW.closest_peers [0] none).Pairwise
      (fun p q => xor_distance [0] p < xor_distance [0] q) :=
  ⟨by decide, by decide,
    (closest_peers_contract rtW [0] none 1).2.2.2.2.2.2 (by decide) (by decide)⟩

/-- C10: Python's `count = count or self.kbucket_size` treats an explicit
count of 0 exactly like an unspecified count, so the call returns
`min(size, K)` peers — in particular not the empty list whenever the table
is non-empty and the capacity positive. -/
theorem closest_peers_count_zero : ∀ (rt : RoutingTable) (target : PeerID),
    rt.closest_peers target (some 0) = rt.closest_peers target none ∧
    (rt.closest_peers target (some 0)).length = min rt.size rt.kbucket_size ∧
    (rt.peers ≠ [] → 0 < rt.kbucket_size →
      rt.closest_peers target (some 0) ≠ []) := by
  intro rt target
  have hlen : (rt.closest_peers target (some 0)).length =
      min rt.size rt.kbucket_size := by
    rw [closest_peers_length]
    have hres : resolveCount rt (some 0) = rt.kbucket_size := rfl
    rw [hres]
    exact Nat.min_comm _ _
  refine ⟨rfl, hlen, ?_⟩
  intro h1 h2 hcon
  have hz : (rt.closest_peers target (some 0)).length = 0 := by
    rw [hcon]
    rfl
  rw [hlen] at hz
  have hpos : 0 < rt.peers.length := List.length_pos.mpr h1
  unfold RoutingTable.size at hz
  omega

theorem closest_peers_count_zero_witness :
    rtTie.peers ≠ [] ∧ 0 < rtTie.kbucket_size ∧
    rtTie.closest_peers [1] (some 0) ≠ [] :=
  ⟨by decide, by decide,
    (closest_peers_count_zero rtTie [1]).2.2 (by decide) (by decide)⟩
